import Mathlib

/-!
Shallow embedding of the gallery thumbnail pipeline
(`scripts/generate-gallery.mjs`).  JavaScript strings are embedded as
lists of characters, descriptor field values as a small inductive of
JavaScript values, and the filesystem together with the image codec as
an abstract environment record.  Each definition mirrors one function of
the source file; the Node `path.posix` helpers the script calls are
modelled from their documented semantics.
-/

namespace Gallery

/-- A JavaScript string, embedded as its list of characters. -/
abbrev JStr := List Char

/-- The JavaScript values a raw descriptor field can hold. -/
inductive JSVal where
  | str (s : JStr)
  | num (n : Int)
  | bool (b : Bool)
  | null
  | undef
deriving DecidableEq, Repr

/-- Source `ensureLeadingSlash`: non-strings give the empty string, a string
gets a leading slash prepended unless it already starts with one. -/
def startsWithSlash (p : JStr) : Bool := decide (p.head? = some '/')

def ensureLeadingSlash : JSVal → JStr
  | .str s => if startsWithSlash s then s else '/' :: s
  | _ => []

/-- Source `stripLeadingSlash`. -/
def stripLeadingSlash (p : JStr) : JStr :=
  if startsWithSlash p then p.tail else p

/-- JavaScript `s.replaceAll(pat, repl)` for a one-character pattern. -/
def replaceAllChar (pat repl : Char) (s : JStr) : JStr :=
  s.map (fun c => if c = pat then repl else c)

/-- Source `normalizeUrlPath`: ensure a leading slash, then replace every
backslash by a forward slash. -/
def normalizeUrlPath (p : JSVal) : JStr :=
  replaceAllChar '\\' '/' (ensureLeadingSlash p)

/-- JavaScript whitespace (the set `String.prototype.trim` removes). -/
def isJsWhitespace (c : Char) : Bool :=
  let n := c.toNat
  n = 9 || n = 10 || n = 11 || n = 12 || n = 13 || n = 32 || n = 160 ||
  n = 0x1680 || (0x2000 ≤ n && n ≤ 0x200A) || n = 0x2028 || n = 0x2029 ||
  n = 0x202F || n = 0x205F || n = 0x3000 || n = 0xFEFF

/-- JavaScript `s.trim()`. -/
def jsTrim (s : JStr) : JStr :=
  ((s.dropWhile isJsWhitespace).reverse.dropWhile isJsWhitespace).reverse

/-- Source `isNonEmptyString`. -/
def isNonEmptyString : JSVal → Bool
  | .str s => 0 < (jsTrim s).length
  | _ => false

/-- JavaScript nullish coalescing `v ?? ""`. -/
def coalesceEmpty (v : JSVal) : JSVal :=
  match v with
  | .null => .str []
  | .undef => .str []
  | x => x

/-- JavaScript `String(v)` conversion on the embedded values. -/
def jsToString : JSVal → JStr
  | .str s => s
  | .num n => (toString n).data
  | .bool true => "true".data
  | .bool false => "false".data
  | .null => "null".data
  | .undef => "undefined".data

/-- Source constant `THUMB_WIDTH`. -/
def THUMB_WIDTH : Nat := 900

/-- Source constant `THUMB_QUALITY`. -/
def THUMB_QUALITY : Nat := 78

/-- The filesystem and image codec the script talks to, as abstract
capabilities: whether a regular file exists at a path, the stat mtime of a
path (`none` when stat fails), the decoded image metadata dimensions, whether
writing a thumbnail at a path succeeds, and the current ISO timestamp. -/
structure Env where
  isFile : JStr → Bool
  mtime : JStr → Option Int
  metaWidth : JStr → Option Nat
  metaHeight : JStr → Option Nat
  writeOk : JStr → Bool
  nowIso : JStr

/-- Source `fileMtimeMs`: the stat mtime, with `-1` when stat throws. -/
def fileMtimeMs (env : Env) (p : JStr) : Int :=
  match env.mtime p with
  | some t => t
  | none => -1

/-- The staleness decision of `main` (line 122):
`thumbMtime < 0 || srcMtime > thumbMtime`. -/
def shouldGenerate (srcMtime thumbMtime : Int) : Bool :=
  decide (thumbMtime < 0) || decide (srcMtime > thumbMtime)

/-- JavaScript `Math.round`: round half toward positive infinity. -/
def jsRound (x : ℚ) : ℤ := ⌊x + 1 / 2⌋

/-- The thumbnail width computed by `main`: `Math.min(THUMB_WIDTH, width)`. -/
def thumbWidthOf (width : Nat) : Nat := min THUMB_WIDTH width

/-- The thumbnail height computed by `main`:
`Math.max(1, Math.round((height / width) * thumbWidth))`.  Exact-arithmetic
rendering: for `width > 0`, rounding `height * thumbWidth / width` half up
equals the natural division `(2 * height * thumbWidth + width) / (2 * width)`;
the theorem `thumb_dimensions` proves this definition equal to the rational
`jsRound` formula. -/
def thumbHeightOf (width height : Nat) : Nat :=
  max 1 ((2 * (height * thumbWidthOf width) + width) / (2 * width))

/-- Node `path.posix.basename(p)` (one argument), modelled from its
documented semantics: the last path segment, ignoring trailing slashes. -/
def posixBasenameRaw (p : JStr) : JStr :=
  ((p.reverse.dropWhile (fun c => c = '/')).takeWhile (fun c => c ≠ '/')).reverse

/-- The extension of one path segment, per Node `path.posix.extname`: the
suffix from the last dot, empty when the segment has no dot, when its only
dot is the leading character (a dotfile), or when the segment is `..`. -/
def extSeg (b : JStr) : JStr :=
  let r := b.reverse
  let afterDot := r.takeWhile (fun c => c ≠ '.')
  let rest := r.dropWhile (fun c => c ≠ '.')
  if rest = [] then []
  else if rest.tail = [] then []
  else if rest.tail = ['.'] && afterDot = [] then []
  else '.' :: afterDot.reverse

/-- Node `path.posix.extname(p)`, modelled from its documented semantics. -/
def posixExtname (p : JStr) : JStr := extSeg (posixBasenameRaw p)

/-- Node `path.posix.basename(p, ext)`, modelled from its documented
semantics: the last segment, with the suffix `ext` stripped when it matches
and is not the whole segment. -/
def posixBasename (p ext : JStr) : JStr :=
  let b := posixBasenameRaw p
  if ext = [] || p.length < ext.length then b
  else if ext = p then []
  else if b = ext then b
  else if ext.isSuffixOf b then b.take (b.length - ext.length)
  else b

/-- Node `path.posix.dirname(p)`, modelled from its documented semantics:
everything before the last slash that precedes the final segment. -/
def posixDirname (p : JStr) : JStr :=
  match p with
  | [] => ['.']
  | c0 :: rest =>
    let r2 := (rest.reverse.dropWhile (fun c => c = '/')).dropWhile (fun c => c ≠ '/')
    if r2 = [] then if c0 = '/' then ['/'] else ['.']
    else if c0 = '/' && r2.tail = [] then ['/', '/']
    else c0 :: r2.tail.reverse

/-- Split a path at every slash (segments between separators). -/
def splitSlash : JStr → List JStr
  | [] => [[]]
  | c :: rest =>
    let ss := splitSlash rest
    if c = '/' then [] :: ss
    else (c :: ss.headD []) :: ss.tail

/-- Join segments with a slash separator. -/
def joinSlash : List JStr → JStr
  | [] => []
  | s :: rest => if rest = [] then s else s ++ '/' :: joinSlash rest

/-- The segment resolution inside Node `normalizeString`: drop empty and `.`
segments, resolve `..` against the accumulated stack (`acc` holds the stack
reversed), keeping `..` segments at the root only when `allowAbove`. -/
def normStack (allowAbove : Bool) : List JStr → List JStr → List JStr
  | acc, [] => acc.reverse
  | acc, seg :: rest =>
    if seg = [] || seg = ['.'] then normStack allowAbove acc rest
    else if seg = ['.', '.'] then
      match acc with
      | [] => normStack allowAbove (if allowAbove then [['.', '.']] else []) rest
      | top :: acc2 =>
        if top = ['.', '.'] then normStack allowAbove (seg :: acc) rest
        else normStack allowAbove acc2 rest
    else normStack allowAbove (seg :: acc) rest

/-- Node `path.posix.normalize(p)`, modelled from its documented semantics. -/
def posixNormalize (p : JStr) : JStr :=
  if p = [] then ['.']
  else
    let isAbs := startsWithSlash p
    let trailing := p.getLast? = some '/'
    let body := joinSlash (normStack (!isAbs) [] (splitSlash p))
    if body = [] then
      if isAbs then ['/'] else if trailing then ['.', '/'] else ['.']
    else
      let body2 := if trailing then body ++ ['/'] else body
      if isAbs then '/' :: body2 else body2

/-- Node `path.posix.join(parts)`, modelled from its documented semantics:
concatenate the non-empty parts with slashes, then normalize. -/
def posixJoinList (parts : List JStr) : JStr :=
  let ps := parts.filter (fun s => s ≠ [])
  if ps = [] then ['.'] else posixNormalize (joinSlash ps)

/-- The constant first path segment of every thumbnail URL. -/
def gallerySeg : JStr := ("gallery").data

/-- The constant second path segment of every thumbnail URL. -/
def thumbsSeg : JStr := ("thumbs").data

/-- The constant extension suffix of every thumbnail URL. -/
def jpgSuffix : JStr := (".jpg").data

/-- Source `toThumbUrl`. -/
def toThumbUrl (srcUrl : JSVal) : JStr :=
  let srcNoSlash := stripLeadingSlash (normalizeUrlPath srcUrl)
  let srcDir := posixDirname srcNoSlash
  let base := posixBasename srcNoSlash (posixExtname srcNoSlash)
  let rel := posixJoinList [gallerySeg, thumbsSeg, srcDir, base ++ jpgSuffix]
  replaceAllChar '\\' '/' ('/' :: rel)

/-- Source `toFsPathFromPublicUrl`, with the public directory (a value of
`process.cwd()` plus `public`) passed explicitly. -/
def toFsPathFromPublicUrl (publicDir urlPath : JStr) : JStr :=
  posixJoinList [publicDir, stripLeadingSlash (normalizeUrlPath (.str urlPath))]

/-- Source `stableIdFromSrc`, step by step: lower-case the normalized URL,
replace slashes and dots by dashes, strip characters outside the allowed
class, collapse dash runs, remove one leading and one trailing dash. -/
def isAllowedChar (c : Char) : Bool :=
  (97 ≤ c.toNat && c.toNat ≤ 122) || (48 ≤ c.toNat && c.toNat ≤ 57) ||
  c = '-' || c = '_'

/-- The dash-run regex replacement of `stableIdFromSrc`: every maximal run
of dashes becomes a single dash, i.e. consecutive duplicate dashes drop. -/
def collapseDashes : JStr → JStr
  | [] => []
  | c :: rest =>
    let r := collapseDashes rest
    if c = '-' then
      if r.head? = some '-' then r else '-' :: r
    else c :: r

/-- The edge-dash regex replacement of `stableIdFromSrc`: remove one leading
dash and one trailing dash. -/
def stripEdgeDash (s : JStr) : JStr :=
  let s1 := if s.head? = some '-' then s.tail else s
  (if s1.reverse.head? = some '-' then s1.reverse.tail else s1.reverse).reverse

/-- Source `stableIdFromSrc`. -/
def stableIdFromSrc (src : JSVal) : JStr :=
  let normalized := (normalizeUrlPath src).map Char.toLower
  stripEdgeDash (collapseDashes
    (((replaceAllChar '.' '-' (replaceAllChar '/' '-' normalized))).filter isAllowedChar))

/-- One raw entry of the parsed descriptor array (`gallery.json`); each field
is the JavaScript value found there, `undef` when absent. -/
structure RawItem where
  src : JSVal
  title : JSVal
  shotUsing : JSVal
  location : JSVal
  description : JSVal
deriving DecidableEq, Repr

/-- The failures the per-descriptor processing can throw, with the data its
error messages carry. -/
inductive GalleryError where
  | invalidDescriptor (idx : Nat)
  | missingSourceFile (idx : Nat) (path : JStr)
  | unreadableImage (src : JStr)
  | thumbnailWriteFailure (path : JStr)
deriving DecidableEq, Repr

/-- One resolved entry of the output manifest. -/
structure Photo where
  id : JStr
  src : JStr
  thumbSrc : JStr
  width : Nat
  height : Nat
  thumbWidth : Nat
  thumbHeight : Nat
  title : JStr
  shotUsing : JStr
  location : JStr
  description : JStr
deriving DecidableEq, Repr

/-- The thumbnail policy block of the manifest. -/
structure ThumbPolicy where
  width : Nat
  quality : Nat
  format : JStr
deriving DecidableEq, Repr

/-- The output manifest document. -/
structure Manifest where
  generatedAt : JStr
  thumb : ThumbPolicy
  photos : List Photo
deriving DecidableEq, Repr

instance {ε α : Type} [DecidableEq ε] [DecidableEq α] : DecidableEq (Except ε α) :=
  fun a b =>
    match a, b with
    | .ok x, .ok y => decidable_of_iff (x = y) (by simp)
    | .error x, .error y => decidable_of_iff (x = y) (by simp)
    | .ok _, .error _ => .isFalse (by simp)
    | .error _, .ok _ => .isFalse (by simp)

/-- The body of the `for` loop of `main` for the descriptor at index `idx`:
normalize and validate `src`, check the source file exists, derive the
thumbnail path, read dimensions, decide staleness, conditionally write the
thumbnail, and build the resolved photo. -/
def processItem (publicDir : JStr) (env : Env) (idx : Nat) (item : RawItem) :
    Except GalleryError Photo :=
  let src := normalizeUrlPath (coalesceEmpty item.src)
  let title := jsTrim (jsToString (coalesceEmpty item.title))
  let shotUsing := jsTrim (jsToString (coalesceEmpty item.shotUsing))
  let location := jsTrim (jsToString (coalesceEmpty item.location))
  let description := jsTrim (jsToString (coalesceEmpty item.description))
  if ¬ isNonEmptyString (.str src) then
    .error (.invalidDescriptor idx)
  else
    let absSrc := toFsPathFromPublicUrl publicDir src
    if ¬ env.isFile absSrc then
      .error (.missingSourceFile idx absSrc)
    else
      let thumbSrc := toThumbUrl (.str src)
      let absThumb := toFsPathFromPublicUrl publicDir thumbSrc
      let srcMtime := fileMtimeMs env absSrc
      let thumbMtime := fileMtimeMs env absThumb
      let width := (env.metaWidth absSrc).getD 0
      let height := (env.metaHeight absSrc).getD 0
      if width = 0 || height = 0 then
        .error (.unreadableImage src)
      else
        let tw := thumbWidthOf width
        let th := thumbHeightOf width height
        if shouldGenerate srcMtime thumbMtime && ¬ env.writeOk absThumb then
          .error (.thumbnailWriteFailure absThumb)
        else
          .ok
            { id := stableIdFromSrc (.str src)
              src := src
              thumbSrc := thumbSrc
              width := width
              height := height
              thumbWidth := tw
              thumbHeight := th
              title := title
              shotUsing := shotUsing
              location := location
              description := description }

/-- The whole descriptor loop of `main`: process entries in input order,
stopping at the first failure. -/
def processAll (publicDir : JStr) (env : Env) (idx : Nat) :
    List RawItem → Except GalleryError (List Photo)
  | [] => .ok []
  | item :: rest =>
    match processItem publicDir env idx item with
    | .error e => .error e
    | .ok p =>
      match processAll publicDir env (idx + 1) rest with
      | .error e => .error e
      | .ok ps => .ok (p :: ps)

/-- `main` after parsing: run the loop over the descriptor list and, only on
success, assemble the manifest that gets written. -/
def runGallery (publicDir : JStr) (env : Env) (items : List RawItem) :
    Except GalleryError Manifest :=
  match processAll publicDir env 0 items with
  | .error e => .error e
  | .ok photos =>
    .ok
      { generatedAt := env.nowIso
        thumb := { width := THUMB_WIDTH, quality := THUMB_QUALITY, format := "jpeg".data }
        photos := photos }

/-- The manifest write is the final statement of `main`, reached only when
every descriptor resolved: it happens exactly when the run succeeds. -/
def manifestWritten (r : Except GalleryError Manifest) : Bool :=
  match r with
  | .ok _ => true
  | .error _ => false

/-- The process exit code set by the `main().catch` handler: `1` on any
error, `0` otherwise. -/
def exitCodeOf (r : Except GalleryError Manifest) : Nat :=
  match r with
  | .ok _ => 0
  | .error _ => 1

/-! Concrete fixtures used by witnesses and counterexamples. -/

/-- An environment in which every path is a regular file with mtime 5 and
every image decodes to 100 times 50 pixels. -/
def demoEnvOk : Env :=
  { isFile := fun _ => true
    mtime := fun _ => some 5
    metaWidth := fun _ => some 100
    metaHeight := fun _ => some 50
    writeOk := fun _ => true
    nowIso := ("t").data }

/-- An environment with an empty filesystem. -/
def demoEnvEmpty : Env :=
  { isFile := fun _ => false
    mtime := fun _ => none
    metaWidth := fun _ => none
    metaHeight := fun _ => none
    writeOk := fun _ => false
    nowIso := [] }

/-- A well-formed raw descriptor. -/
def demoItem : RawItem :=
  { src := .str ("/p/a.png").data
    title := .undef
    shotUsing := .undef
    location := .undef
    description := .undef }

/-- A raw descriptor whose `src` field is missing. -/
def demoItemNoSrc : RawItem :=
  { src := .undef, title := .undef, shotUsing := .undef
    location := .undef, description := .undef }

/-- A raw descriptor whose `src` field is a number. -/
def demoItemNumSrc : RawItem :=
  { src := .num 7, title := .undef, shotUsing := .undef
    location := .undef, description := .undef }

/-- The photo that `demoItem` resolves to under `demoEnvOk`. -/
def demoPhoto : Photo :=
  { id := ("p-a-png").data
    src := ("/p/a.png").data
    thumbSrc := ("/gallery/thumbs/p/a.jpg").data
    width := 100
    height := 50
    thumbWidth := 100
    thumbHeight := 50
    title := []
    shotUsing := []
    location := []
    description := [] }

/-- The manifest produced from `[demoItem]` under `demoEnvOk`. -/
def demoManifest : Manifest :=
  { generatedAt := ("t").data
    thumb := { width := 900, quality := 78, format := ("jpeg").data }
    photos := [demoPhoto] }

/-! Helper lemmas on the string utilities. -/

lemma replaceAllChar_head? (pat repl : Char) (s : JStr) :
    (replaceAllChar pat repl s).head? =
      s.head?.map (fun c => if c = pat then repl else c) := by
  cases s <;> simp [replaceAllChar]

lemma not_mem_replaceAllChar (pat repl : Char) (hpr : pat ≠ repl) (s : JStr) :
    pat ∉ replaceAllChar pat repl s := by
  intro hmem
  simp only [replaceAllChar, List.mem_map] at hmem
  obtain ⟨a, _, ha⟩ := hmem
  by_cases h : a = pat
  · rw [if_pos h] at ha
    exact hpr ha.symm
  · rw [if_neg h] at ha
    exact h ha

lemma normalizeUrlPath_head? (s : JStr) :
    (normalizeUrlPath (.str s)).head? = some '/' := by
  simp only [normalizeUrlPath, ensureLeadingSlash]
  by_cases h : startsWithSlash s
  · rw [if_pos h]
    rw [replaceAllChar_head?]
    unfold startsWithSlash at h
    rw [decide_eq_true_eq] at h
    rw [h]
    rfl
  · rw [if_neg h]
    rfl

lemma dropWhile_ne_nil_of_mem {p : Char → Bool} {c : Char} :
    ∀ {l : JStr}, c ∈ l → p c = false → l.dropWhile p ≠ []
  | [], hmem, _ => absurd hmem (List.not_mem_nil c)
  | a :: rest, hmem, hc => by
    by_cases ha : p a
    · rw [List.dropWhile_cons_of_pos ha]
      rcases List.mem_cons.1 hmem with h | h
      · subst h
        rw [ha] at hc
        cases hc
      · exact dropWhile_ne_nil_of_mem h hc
    · rw [List.dropWhile_cons_of_neg ha]
      simp

lemma isNonEmptyString_normalized (s : JStr) :
    isNonEmptyString (.str (normalizeUrlPath (.str s))) = true := by
  have hh := normalizeUrlPath_head? s
  obtain ⟨t, ht⟩ : ∃ t, normalizeUrlPath (.str s) = '/' :: t := by
    cases hl : normalizeUrlPath (.str s) with
    | nil => rw [hl] at hh; cases hh
    | cons c t2 =>
      rw [hl] at hh
      simp only [List.head?_cons, Option.some.injEq] at hh
      exact ⟨t2, by rw [hh]⟩
  rw [ht]
  simp only [isNonEmptyString, jsTrim, decide_eq_true_eq]
  have hws : isJsWhitespace '/' = false := by decide
  rw [List.dropWhile_cons_of_neg (by rw [hws]; simp)]
  have hmem : '/' ∈ ('/' :: t).reverse := by simp
  have hne := dropWhile_ne_nil_of_mem hmem hws
  have hrev : (('/' :: t).reverse.dropWhile isJsWhitespace).reverse ≠ [] := by
    intro hbad
    exact hne (by simpa using congrArg List.reverse hbad)
  exact List.length_pos.2 hrev

/-- C1: with absence of the thumbnail encoded as a stat failure (sentinel
`-1`, below every real timestamp), the staleness decision regenerates the
thumbnail exactly when the thumbnail is absent or the source mtime is
strictly larger; equal mtimes cause no regeneration. -/
theorem staleness_decision (env : Env) (srcPath thumbPath : JStr) (s : Int)
    (hs : env.mtime srcPath = some s) (hs0 : 0 ≤ s)
    (ht : ∀ t, env.mtime thumbPath = some t → 0 ≤ t) :
    (shouldGenerate (fileMtimeMs env srcPath) (fileMtimeMs env thumbPath) = true ↔
      env.mtime thumbPath = none ∨ ∃ t, env.mtime thumbPath = some t ∧ t < s) ∧
    (env.mtime thumbPath = some s →
      shouldGenerate (fileMtimeMs env srcPath) (fileMtimeMs env thumbPath) = false) := by
  have hfm : fileMtimeMs env srcPath = s := by simp [fileMtimeMs, hs]
  cases hT : env.mtime thumbPath with
  | none =>
    have hfm2 : fileMtimeMs env thumbPath = -1 := by simp [fileMtimeMs, hT]
    rw [hfm, hfm2]
    refine ⟨?_, ?_⟩
    · simp [shouldGenerate]
    · intro hcontra
      simp at hcontra
  | some t =>
    have hfm2 : fileMtimeMs env thumbPath = t := by simp [fileMtimeMs, hT]
    have ht0 : 0 ≤ t := ht t hT
    rw [hfm, hfm2]
    refine ⟨?_, ?_⟩
    · simp only [shouldGenerate, Bool.or_eq_true, decide_eq_true_eq]
      constructor
      · rintro (hlt | hlt)
        · omega
        · exact Or.inr ⟨t, rfl, hlt⟩
      · rintro (hbad | ⟨t2, ht2, hlt⟩)
        · cases hbad
        · injection ht2 with h2
          subst h2
          right
          omega
    · intro heq
      injection heq with h2
      subst h2
      simp only [shouldGenerate, Bool.or_eq_false_iff, decide_eq_false_iff_not]
      omega

/-- C1 witness at a concrete environment: source and thumbnail both have
mtime 5, so no regeneration happens. -/
theorem staleness_decision_witness :
    (shouldGenerate (fileMtimeMs demoEnvOk ("a").data) (fileMtimeMs demoEnvOk ("b").data) = true ↔
      demoEnvOk.mtime ("b").data = none ∨ ∃ t, demoEnvOk.mtime ("b").data = some t ∧ t < 5) ∧
    (demoEnvOk.mtime ("b").data = some 5 →
      shouldGenerate (fileMtimeMs demoEnvOk ("a").data) (fileMtimeMs demoEnvOk ("b").data) = false) :=
  staleness_decision demoEnvOk ("a").data ("b").data 5 rfl (by decide)
    (fun t h => by simp [demoEnvOk] at h; omega)

/-- Bridge between the executable integer form of `thumbHeightOf` and the
rational rounding formula of the source. -/
lemma thumbHeight_eq_round (w h : Nat) (hw : 0 < w) :
    (thumbHeightOf w h : ℤ) =
      max 1 (jsRound ((h : ℚ) * (thumbWidthOf w : ℚ) / (w : ℚ))) := by
  have key : jsRound ((h : ℚ) * (thumbWidthOf w : ℚ) / (w : ℚ)) =
      (((2 * (h * thumbWidthOf w) + w) / (2 * w) : ℕ) : ℤ) := by
    unfold jsRound
    have hb : (w : ℚ) ≠ 0 := Nat.cast_ne_zero.2 hw.ne'
    have h1 : (h : ℚ) * (thumbWidthOf w : ℚ) / (w : ℚ) + 1 / 2 =
        (((2 * (h * thumbWidthOf w) + w : ℕ) : ℤ) : ℚ) / ((2 * w : ℕ) : ℚ) := by
      push_cast
      field_simp
      ring
    rw [h1, Rat.floor_intCast_div_natCast]
    push_cast [Int.ofNat_div]
    rfl
  rw [key]
  unfold thumbHeightOf
  push_cast [Nat.cast_max]
  rfl

/-- C2: the computed thumbnail box is `thumbWidth = min 900 sourceWidth` and
`thumbHeight = max 1 (round (sourceHeight * thumbWidth / sourceWidth))`, and
a 2000 times 1000 source yields exactly 900 times 450. -/
theorem thumb_dimensions (w h : Nat) (hw : 0 < w) (hh : 0 < h) :
    thumbWidthOf w = min 900 w ∧
    (thumbHeightOf w h : ℤ) = max 1 (jsRound ((h : ℚ) * (thumbWidthOf w : ℚ) / (w : ℚ))) ∧
    thumbWidthOf 2000 = 900 ∧ thumbHeightOf 2000 1000 = 450 :=
  ⟨rfl, thumbHeight_eq_round w h hw, by decide, by decide⟩

/-- C2 witness at the concrete 2000 times 1000 source. -/
theorem thumb_dimensions_witness :
    0 < 2000 ∧ 0 < 1000 ∧
    (thumbWidthOf 2000 = min 900 2000 ∧
      (thumbHeightOf 2000 1000 : ℤ) =
        max 1 (jsRound ((1000 : ℚ) * (thumbWidthOf 2000 : ℚ) / (2000 : ℚ))) ∧
      thumbWidthOf 2000 = 900 ∧ thumbHeightOf 2000 1000 = 450) :=
  ⟨by decide, by decide, thumb_dimensions 2000 1000 (by decide) (by decide)⟩

/-- C8: the computed thumbnail width never exceeds the source width, a
400 times 300 source keeps width 400 (not 900) and height 300, and the
height is `max 1 (round (thumbWidth * sourceHeight / sourceWidth))`. -/
theorem never_upscale (w h : Nat) (hw : 0 < w) (hh : 0 < h) :
    thumbWidthOf w ≤ w ∧
    (thumbHeightOf w h : ℤ) = max 1 (jsRound ((thumbWidthOf w : ℚ) * (h : ℚ) / (w : ℚ))) ∧
    thumbWidthOf 400 = 400 ∧ thumbHeightOf 400 300 = 300 := by
  refine ⟨min_le_right _ _, ?_, by decide, by decide⟩
  rw [thumbHeight_eq_round w h hw]
  rw [mul_comm ((thumbWidthOf w : ℚ)) ((h : ℚ))]

/-- C8 witness at the concrete 400 times 300 source. -/
theorem never_upscale_witness :
    0 < 400 ∧ 0 < 300 ∧
    (thumbWidthOf 400 ≤ 400 ∧
      (thumbHeightOf 400 300 : ℤ) =
        max 1 (jsRound ((thumbWidthOf 400 : ℚ) * (300 : ℚ) / (400 : ℚ))) ∧
      thumbWidthOf 400 = 400 ∧ thumbHeightOf 400 300 = 300) :=
  ⟨by decide, by decide, never_upscale 400 300 (by decide) (by decide)⟩

/-- A raw descriptor whose `src` field is the empty string. -/
def demoItemEmptySrc : RawItem :=
  { src := .str [], title := .undef, shotUsing := .undef
    location := .undef, description := .undef }

/-- C9 counterexample: on the empty string, `normalizeUrlPath` returns the
non-empty path consisting of one slash, not the empty sentinel. -/
theorem normalizeUrlPath_empty_cex :
    normalizeUrlPath (.str []) = ['/'] ∧ normalizeUrlPath (.str []) ≠ [] := by
  decide

/-- C9 amended: for string input `normalizeUrlPath` ensures a leading slash
and converts every backslash to a forward slash; only non-string input
yields the empty sentinel, while the empty string yields the non-empty
path consisting of one slash. -/
theorem normalizeUrlPath_amended (s : JStr) (n : Int) (b : Bool) :
    (normalizeUrlPath (.str s)).head? = some '/' ∧
    '\\' ∉ normalizeUrlPath (.str s) ∧
    normalizeUrlPath (.str s) = replaceAllChar '\\' '/' (ensureLeadingSlash (.str s)) ∧
    normalizeUrlPath (.str []) = ['/'] ∧
    normalizeUrlPath (.num n) = [] ∧
    normalizeUrlPath (.bool b) = [] ∧
    normalizeUrlPath .null = [] ∧
    normalizeUrlPath .undef = [] :=
  ⟨normalizeUrlPath_head? s, not_mem_replaceAllChar '\\' '/' (by decide) _, rfl,
    by decide, rfl, rfl, rfl, rfl⟩

/-- C3 counterexample: a descriptor with a missing `src`, and one with an
empty-string `src`, are not rejected as InvalidDescriptor; both pass the
validation (their `src` normalizes to the non-empty path of one slash) and
fail at the file-existence check as MissingSourceFile. -/
theorem missing_src_cex :
    processItem ("/pub").data demoEnvEmpty 0 demoItemNoSrc =
      .error (.missingSourceFile 0 ("/pub").data) ∧
    processItem ("/pub").data demoEnvEmpty 0 demoItemNoSrc ≠
      .error (.invalidDescriptor 0) ∧
    processItem ("/pub").data demoEnvEmpty 0 demoItemEmptySrc ≠
      .error (.invalidDescriptor 0) := by
  decide

/-- Whether a JavaScript value is of non-string, non-nullish type. -/
def isNonStringValue : JSVal → Bool
  | .num _ => true
  | .bool _ => true
  | _ => false

lemma processItem_not_invalid_of_coalesce_str (publicDir : JStr) (env : Env)
    (idx : Nat) (item : RawItem) (s : JStr) (hsrc : coalesceEmpty item.src = .str s) :
    processItem publicDir env idx item ≠ .error (.invalidDescriptor idx) := by
  intro hbad
  simp only [processItem, hsrc, isNonEmptyString_normalized, not_true, if_false,
    Bool.not_eq_true] at hbad
  split at hbad
  · simp at hbad
  · split at hbad
    · simp at hbad
    · split at hbad
      · simp at hbad
      · simp at hbad

lemma processItem_invalid_of_nonstring (publicDir : JStr) (env : Env)
    (idx : Nat) (item : RawItem) (h : isNonStringValue item.src = true) :
    processItem publicDir env idx item = .error (.invalidDescriptor idx) := by
  obtain ⟨src, t1, t2, t3, t4⟩ := item
  cases src with
  | num n =>
    simp [processItem, coalesceEmpty, normalizeUrlPath, ensureLeadingSlash,
      replaceAllChar, isNonEmptyString, jsTrim]
  | bool b =>
    simp [processItem, coalesceEmpty, normalizeUrlPath, ensureLeadingSlash,
      replaceAllChar, isNonEmptyString, jsTrim]
  | str s => simp [isNonStringValue] at h
  | null => simp [isNonStringValue] at h
  | undef => simp [isNonStringValue] at h

/-- C3 amended: the InvalidDescriptor failure, whose payload names the
descriptor index, occurs exactly when the raw `src` is a value of
non-string, non-nullish type; a missing or null `src` and an empty or
whitespace-only string `src` pass the validation instead (failing later,
typically as MissingSourceFile). -/
theorem invalidDescriptor_iff (publicDir : JStr) (env : Env) (idx : Nat)
    (item : RawItem) :
    processItem publicDir env idx item = .error (.invalidDescriptor idx) ↔
      isNonStringValue item.src = true := by
  constructor
  · intro hbad
    by_contra hns
    obtain ⟨src, t1, t2, t3, t4⟩ := item
    cases src with
    | str s =>
      exact processItem_not_invalid_of_coalesce_str publicDir env idx
        ⟨.str s, t1, t2, t3, t4⟩ s rfl hbad
    | null =>
      exact processItem_not_invalid_of_coalesce_str publicDir env idx
        ⟨.null, t1, t2, t3, t4⟩ [] rfl hbad
    | undef =>
      exact processItem_not_invalid_of_coalesce_str publicDir env idx
        ⟨.undef, t1, t2, t3, t4⟩ [] rfl hbad
    | num n => exact hns rfl
    | bool b => exact hns rfl
  · exact processItem_invalid_of_nonstring publicDir env idx item

/-- Whether a string contains two consecutive dashes. -/
def hasDoubleDash : JStr → Bool
  | [] => false
  | [_] => false
  | a :: b :: rest => (a = '-' && b = '-') || hasDoubleDash (b :: rest)

/-- Removing all leading and trailing dashes: how the specification words
the final trimming step of the identifier derivation. -/
def trimDashes (s : JStr) : JStr :=
  ((s.dropWhile (fun c => c = '-')).reverse.dropWhile (fun c => c = '-')).reverse

/-- The identifier derivation as the specification words it: lower-case the
normalized source URL, replace every slash and dot with a dash, strip any
character outside the allowed class, collapse runs of dashes into one, and
trim leading and trailing dashes.  Spec-side definition, to be compared
against the source `stableIdFromSrc`. -/
def deriveIdSpec (src : JSVal) : JStr :=
  trimDashes (collapseDashes
    ((replaceAllChar '.' '-' (replaceAllChar '/' '-'
      ((normalizeUrlPath src).map Char.toLower))).filter isAllowedChar))

lemma noDD_tail {a : Char} {l : JStr} (h : hasDoubleDash (a :: l) = false) :
    hasDoubleDash l = false := by
  cases l with
  | nil => rfl
  | cons b r =>
    rw [hasDoubleDash] at h
    exact (Bool.or_eq_false_iff.1 h).2

lemma hasDoubleDash_eq_false_iff (l : JStr) :
    hasDoubleDash l = false ↔ l.Chain' (fun a b => ¬(a = '-' ∧ b = '-')) := by
  induction l with
  | nil => simp [hasDoubleDash]
  | cons a t ih =>
    cases t with
    | nil => simp [hasDoubleDash]
    | cons b r =>
      rw [hasDoubleDash, List.chain'_cons, Bool.or_eq_false_iff, ih]
      constructor
      · rintro ⟨h1, h2⟩
        refine ⟨fun hab => ?_, h2⟩
        rw [hab.1, hab.2] at h1
        simp at h1
      · rintro ⟨h1, h2⟩
        refine ⟨?_, h2⟩
        by_cases ha : a = '-'
        · by_cases hb : b = '-'
          · exact absurd ⟨ha, hb⟩ h1
          · simp [hb]
        · simp [ha]

lemma hasDoubleDash_reverse_eq_false (l : JStr) :
    hasDoubleDash l.reverse = false ↔ hasDoubleDash l = false := by
  rw [hasDoubleDash_eq_false_iff, hasDoubleDash_eq_false_iff, List.chain'_reverse]
  constructor
  · intro h
    exact h.imp fun a b hab hc => hab ⟨hc.2, hc.1⟩
  · intro h
    exact h.imp fun a b hab hc => hab ⟨hc.2, hc.1⟩

lemma collapseDashes_noDD : ∀ l : JStr, hasDoubleDash (collapseDashes l) = false := by
  intro l
  induction l with
  | nil => rfl
  | cons c rest ih =>
    simp only [collapseDashes]
    by_cases hc : c = '-'
    · rw [if_pos hc]
      by_cases hh : (collapseDashes rest).head? = some '-'
      · rw [if_pos hh]
        exact ih
      · rw [if_neg hh]
        cases hr : collapseDashes rest with
        | nil => rfl
        | cons d t =>
          rw [hr] at ih hh
          rw [hasDoubleDash, Bool.or_eq_false_iff]
          refine ⟨?_, ih⟩
          simp only [List.head?_cons, Option.some.injEq] at hh
          simp [hh]
    · rw [if_neg hc]
      cases hr : collapseDashes rest with
      | nil => rfl
      | cons d t =>
        rw [hr] at ih
        rw [hasDoubleDash, Bool.or_eq_false_iff]
        exact ⟨by simp [hc], ih⟩

lemma mem_collapseDashes {c : Char} : ∀ {l : JStr}, c ∈ collapseDashes l → c ∈ l := by
  intro l
  induction l with
  | nil => simp [collapseDashes]
  | cons a rest ih =>
    simp only [collapseDashes]
    intro h
    by_cases ha : a = '-'
    · rw [if_pos ha] at h
      by_cases hh : (collapseDashes rest).head? = some '-'
      · rw [if_pos hh] at h
        exact List.mem_cons_of_mem a (ih h)
      · rw [if_neg hh] at h
        rcases List.mem_cons.1 h with h | h
        · rw [h, ← ha]
          exact List.mem_cons_self a rest
        · exact List.mem_cons_of_mem a (ih h)
    · rw [if_neg ha] at h
      rcases List.mem_cons.1 h with h | h
      · rw [h]
        exact List.mem_cons_self a rest
      · exact List.mem_cons_of_mem a (ih h)

lemma dropWhile_dash_of_noDD (l : JStr) (h : hasDoubleDash l = false) :
    l.dropWhile (fun c => c = '-') = if l.head? = some '-' then l.tail else l := by
  cases l with
  | nil => simp
  | cons a t =>
    by_cases ha : a = '-'
    · subst ha
      rw [if_pos (by simp)]
      rw [List.dropWhile_cons_of_pos (by simp)]
      cases t with
      | nil => simp
      | cons b r =>
        have hb : b ≠ '-' := by
          intro hb
          rw [hb] at h
          rw [hasDoubleDash] at h
          simp at h
        rw [List.dropWhile_cons_of_neg (by simp [hb])]
        simp
    · rw [if_neg (by simp [ha])]
      rw [List.dropWhile_cons_of_neg (by simp [ha])]

lemma stripEdgeDash_eq_trimDashes (l : JStr) (h : hasDoubleDash l = false) :
    stripEdgeDash l = trimDashes l := by
  simp only [stripEdgeDash, trimDashes]
  rw [dropWhile_dash_of_noDD l h]
  have hs1dd : hasDoubleDash (if l.head? = some '-' then l.tail else l) = false := by
    split
    · cases l with
      | nil => exact h
      | cons a t => exact noDD_tail h
    · exact h
  rw [dropWhile_dash_of_noDD _ ((hasDoubleDash_reverse_eq_false _).2 hs1dd)]

/-- C5: the source identifier derivation coincides, on every input, with the
specification pipeline (which trims all leading and trailing dashes), and it
is a deterministic pure function of the source URL alone. -/
theorem stableId_matches_spec (src : JSVal) :
    stableIdFromSrc src = deriveIdSpec src ∧
    ∀ v w : JSVal, v = w → stableIdFromSrc v = stableIdFromSrc w := by
  constructor
  · unfold stableIdFromSrc deriveIdSpec
    exact stripEdgeDash_eq_trimDashes _ (collapseDashes_noDD _)
  · intro v w h
    rw [h]

lemma head?_dropWhile_false {p : Char → Bool} :
    ∀ (l : JStr) {c : Char}, (l.dropWhile p).head? = some c → p c = false := by
  intro l
  induction l with
  | nil =>
    intro c h
    cases h
  | cons a t ih =>
    intro c h
    by_cases ha : p a
    · rw [List.dropWhile_cons_of_pos ha] at h
      exact ih h
    · rw [List.dropWhile_cons_of_neg ha] at h
      simp only [List.head?_cons, Option.some.injEq] at h
      rw [← h]
      exact Bool.not_eq_true _ ▸ (by simpa using ha)

lemma getLast?_dropWhile {p : Char → Bool} :
    ∀ (l : JStr), l.dropWhile p ≠ [] → (l.dropWhile p).getLast? = l.getLast? := by
  intro l
  induction l with
  | nil => simp
  | cons a t ih =>
    intro hne
    by_cases ha : p a
    · rw [List.dropWhile_cons_of_pos ha] at hne ⊢
      rw [ih hne]
      have ht : t ≠ [] := by
        intro hbad
        rw [hbad] at hne
        simp at hne
      cases t with
      | nil => exact absurd rfl ht
      | cons b r => simp [List.getLast?_cons_cons]
    · rw [List.dropWhile_cons_of_neg ha]

lemma mem_stripEdgeDash {c : Char} {l : JStr} (h : c ∈ stripEdgeDash l) : c ∈ l := by
  have step : ∀ m : JStr,
      c ∈ (if m.reverse.head? = some '-' then m.reverse.tail else m.reverse).reverse →
      c ∈ m := by
    intro m hm
    rw [List.mem_reverse] at hm
    rw [← List.mem_reverse]
    split at hm
    · exact List.mem_of_mem_tail hm
    · exact hm
  simp only [stripEdgeDash] at h
  have h1 := step _ h
  split at h1
  · exact List.mem_of_mem_tail h1
  · exact h1

lemma noDD_dropWhile {p : Char → Bool} (l : JStr) (h : hasDoubleDash l = false) :
    hasDoubleDash (l.dropWhile p) = false := by
  rw [hasDoubleDash_eq_false_iff] at h ⊢
  exact h.suffix (List.dropWhile_suffix p)

lemma trimDashes_noDD (l : JStr) (h : hasDoubleDash l = false) :
    hasDoubleDash (trimDashes l) = false := by
  simp only [trimDashes]
  rw [hasDoubleDash_reverse_eq_false]
  exact noDD_dropWhile _ ((hasDoubleDash_reverse_eq_false _).2 (noDD_dropWhile _ h))

lemma trimDashes_head?_ne (l : JStr) {c : Char}
    (hc : (trimDashes l).head? = some c) : c ≠ '-' := by
  simp only [trimDashes] at hc
  rw [List.head?_reverse] at hc
  have hq : (l.dropWhile (fun c => c = '-')).reverse.dropWhile (fun c => c = '-') ≠ [] := by
    intro hbad
    rw [hbad] at hc
    cases hc
  rw [getLast?_dropWhile _ hq, List.getLast?_reverse] at hc
  have hf := head?_dropWhile_false _ hc
  simpa using hf

lemma trimDashes_getLast?_ne (l : JStr) {c : Char}
    (hc : (trimDashes l).getLast? = some c) : c ≠ '-' := by
  simp only [trimDashes] at hc
  rw [List.getLast?_reverse] at hc
  have hf := head?_dropWhile_false _ hc
  simpa using hf

/-- C10: every derived identifier uses only characters from the allowed
class, contains no two consecutive dashes, and neither starts nor ends with
a dash. -/
theorem stableId_charset (src : JSVal) :
    (∀ c ∈ stableIdFromSrc src, isAllowedChar c = true) ∧
    hasDoubleDash (stableIdFromSrc src) = false ∧
    (∀ c, (stableIdFromSrc src).head? = some c → c ≠ '-') ∧
    (∀ c, (stableIdFromSrc src).getLast? = some c → c ≠ '-') := by
  have hdd := collapseDashes_noDD
    ((replaceAllChar '.' '-' (replaceAllChar '/' '-'
      ((normalizeUrlPath src).map Char.toLower))).filter isAllowedChar)
  have hid : stableIdFromSrc src =
      trimDashes (collapseDashes
        ((replaceAllChar '.' '-' (replaceAllChar '/' '-'
          ((normalizeUrlPath src).map Char.toLower))).filter isAllowedChar)) := by
    unfold stableIdFromSrc
    exact stripEdgeDash_eq_trimDashes _ hdd
  refine ⟨?_, ?_, ?_, ?_⟩
  · intro c hc
    have h1 := mem_stripEdgeDash (l := collapseDashes
      ((replaceAllChar '.' '-' (replaceAllChar '/' '-'
        ((normalizeUrlPath src).map Char.toLower))).filter isAllowedChar)) hc
    have h2 := mem_collapseDashes h1
    exact (List.mem_filter.1 h2).2
  · rw [hid]
    exact trimDashes_noDD _ hdd
  · intro c hc
    rw [hid] at hc
    exact trimDashes_head?_ne _ hc
  · intro c hc
    rw [hid] at hc
    exact trimDashes_getLast?_ne _ hc

lemma processAll_error (publicDir : JStr) (env : Env) :
    ∀ (items : List RawItem) (idx i : Nat) (e : GalleryError) (hi : i < items.length),
      (∀ j (hj : j < i), (processItem publicDir env (idx + j)
        (items.get ⟨j, Nat.lt_trans hj hi⟩)).isOk = true) →
      processItem publicDir env (idx + i) (items.get ⟨i, hi⟩) = .error e →
      processAll publicDir env idx items = .error e := by
  intro items
  induction items with
  | nil =>
    intro idx i e hi hok herr
    exact absurd hi (by simp)
  | cons item rest ih =>
    intro idx i e hi hok herr
    cases i with
    | zero =>
      simp only [List.get] at herr
      rw [Nat.add_zero] at herr
      simp only [processAll]
      rw [herr]
    | succ k =>
      have h0 : (processItem publicDir env (idx + 0) item).isOk = true := by
        simpa using hok 0 (Nat.succ_pos k)
      rw [Nat.add_zero] at h0
      obtain ⟨p, hp⟩ : ∃ p, processItem publicDir env idx item = .ok p := by
        cases hP : processItem publicDir env idx item with
        | ok p => exact ⟨p, rfl⟩
        | error e2 =>
          rw [hP] at h0
          cases h0
      simp only [processAll]
      rw [hp]
      have hi2 : k < rest.length := Nat.lt_of_succ_lt_succ hi
      have hrec : processAll publicDir env (idx + 1) rest = .error e := by
        apply ih (idx + 1) k e hi2
        · intro j hj
          have h1 := hok (j + 1) (Nat.succ_lt_succ hj)
          have heq : idx + (j + 1) = idx + 1 + j := by omega
          rw [heq] at h1
          simpa only [List.get_cons_succ] using h1
        · have heq : idx + (k + 1) = idx + 1 + k := by omega
          rw [heq] at herr
          simpa only [List.get_cons_succ] using herr
      rw [hrec]

lemma processAll_ok (publicDir : JStr) (env : Env) :
    ∀ (items : List RawItem) (idx : Nat) (photos : List Photo),
      processAll publicDir env idx items = .ok photos →
      photos.length = items.length ∧
      ∀ i (hi : i < items.length),
        (processItem publicDir env (idx + i) (items.get ⟨i, hi⟩)).toOption = photos[i]? := by
  intro items
  induction items with
  | nil =>
    intro idx photos h
    simp only [processAll] at h
    injection h with h2
    subst h2
    exact ⟨rfl, fun i hi => absurd hi (by simp)⟩
  | cons item rest ih =>
    intro idx photos h
    simp only [processAll] at h
    cases hP : processItem publicDir env idx item with
    | error e =>
      rw [hP] at h
      cases h
    | ok p =>
      rw [hP] at h
      cases hR : processAll publicDir env (idx + 1) rest with
      | error e =>
        rw [hR] at h
        cases h
      | ok ps =>
        rw [hR] at h
        injection h with h2
        subst h2
        obtain ⟨hlen, hcorr⟩ := ih (idx + 1) ps hR
        refine ⟨by simpa using hlen, ?_⟩
        intro i hi
        cases i with
        | zero =>
          simp [hP, Except.toOption]
        | succ k =>
          have hk : k < rest.length := Nat.lt_of_succ_lt_succ hi
          have h1 := hcorr k hk
          have heq : idx + (k + 1) = idx + 1 + k := by omega
          rw [heq]
          simpa only [List.get_cons_succ, List.getElem?_cons_succ] using h1

/-- C6: if the descriptors before index `i` all process successfully and the
one at `i` fails with error `e`, the whole run aborts with exactly that
first error, the manifest is not written, and the process exit code is 1. -/
theorem fail_fast_no_manifest (publicDir : JStr) (env : Env) (items : List RawItem)
    (i : Nat) (e : GalleryError) (hi : i < items.length)
    (hok : ∀ j (hj : j < i), (processItem publicDir env j
      (items.get ⟨j, Nat.lt_trans hj hi⟩)).isOk = true)
    (herr : processItem publicDir env i (items.get ⟨i, hi⟩) = .error e) :
    runGallery publicDir env items = .error e ∧
    manifestWritten (runGallery publicDir env items) = false ∧
    exitCodeOf (runGallery publicDir env items) = 1 := by
  have hall : processAll publicDir env 0 items = .error e := by
    apply processAll_error publicDir env items 0 i e hi
    · intro j hj
      simpa using hok j hj
    · simpa using herr
  refine ⟨?_, ?_, ?_⟩ <;> simp [runGallery, hall, manifestWritten, exitCodeOf]

/-- C6 witness: one invalid descriptor aborts the concrete run with its
error, no manifest, and exit code 1. -/
theorem fail_fast_no_manifest_witness :
    runGallery ("/pub").data demoEnvEmpty [demoItemNumSrc] = .error (.invalidDescriptor 0) ∧
    manifestWritten (runGallery ("/pub").data demoEnvEmpty [demoItemNumSrc]) = false ∧
    exitCodeOf (runGallery ("/pub").data demoEnvEmpty [demoItemNumSrc]) = 1 :=
  fail_fast_no_manifest ("/pub").data demoEnvEmpty [demoItemNumSrc] 0
    (.invalidDescriptor 0) (by decide)
    (fun j hj => absurd hj (Nat.not_lt_zero j)) (by decide)

/-- C7: a successful run produces one manifest photo per input descriptor,
in input order: the resolved photo at position `i` is exactly the result of
processing the descriptor at position `i`. -/
theorem manifest_order (publicDir : JStr) (env : Env) (items : List RawItem)
    (m : Manifest) (h : runGallery publicDir env items = .ok m) :
    m.photos.length = items.length ∧
    ∀ i (hi : i < items.length),
      (processItem publicDir env i (items.get ⟨i, hi⟩)).toOption = m.photos[i]? := by
  obtain ⟨photos, hA, hm⟩ :
      ∃ photos, processAll publicDir env 0 items = .ok photos ∧ m.photos = photos := by
    unfold runGallery at h
    cases hA : processAll publicDir env 0 items with
    | error e =>
      rw [hA] at h
      cases h
    | ok ps =>
      rw [hA] at h
      injection h with h2
      exact ⟨ps, rfl, by rw [← h2]⟩
  obtain ⟨hlen, hcorr⟩ := processAll_ok publicDir env items 0 photos hA
  rw [hm]
  exact ⟨hlen, fun i hi => by simpa using hcorr i hi⟩

/-- C7 witness: the concrete one-descriptor run produces a one-photo
manifest whose single entry resolves the single descriptor. -/
theorem manifest_order_witness :
    demoManifest.photos.length = [demoItem].length ∧
    (processItem ("/pub").data demoEnvOk 0 ([demoItem].get ⟨0, by decide⟩)).toOption =
      demoManifest.photos[0]? := by
  have h := manifest_order ("/pub").data demoEnvOk [demoItem] demoManifest (by decide)
  exact ⟨h.1, h.2 0 (by decide)⟩

/-! Generic list lemmas used by the thumbnail URL shape theorem. -/

lemma head?_mem {c : Char} : ∀ {l : JStr}, l.head? = some c → c ∈ l
  | [], h => by cases h
  | a :: t, h => by
    simp only [List.head?_cons, Option.some.injEq] at h
    rw [← h]
    exact List.mem_cons_self a t

lemma dropWhile_eq_self_of_head {p : Char → Bool} (l : JStr)
    (h : ∀ c, l.head? = some c → p c = false) : l.dropWhile p = l := by
  cases l with
  | nil => rfl
  | cons a t => exact List.dropWhile_cons_of_neg (by simp [h a rfl])

lemma takeWhile_append_all {p : Char → Bool} :
    ∀ (A B : JStr), (∀ c ∈ A, p c = true) →
      (A ++ B).takeWhile p = A ++ B.takeWhile p := by
  intro A
  induction A with
  | nil =>
    intro B h
    rfl
  | cons a t ih =>
    intro B h
    rw [List.cons_append, List.takeWhile_cons_of_pos (h a (List.mem_cons_self a t)),
      ih B (fun c hc => h c (List.mem_cons_of_mem a hc))]
    rfl

lemma takeWhile_stop {p : Char → Bool} (A B : JStr) (x : Char)
    (hA : ∀ c ∈ A, p c = true) (hx : p x = false) :
    (A ++ x :: B).takeWhile p = A := by
  rw [takeWhile_append_all A (x :: B) hA, List.takeWhile_cons_of_neg (by simp [hx])]
  simp

lemma dropWhile_append_all {p : Char → Bool} :
    ∀ (A B : JStr), (∀ c ∈ A, p c = true) →
      (A ++ B).dropWhile p = B.dropWhile p := by
  intro A
  induction A with
  | nil =>
    intro B h
    rfl
  | cons a t ih =>
    intro B h
    rw [List.cons_append, List.dropWhile_cons_of_pos (h a (List.mem_cons_self a t)),
      ih B (fun c hc => h c (List.mem_cons_of_mem a hc))]

lemma dropWhile_stop {p : Char → Bool} (A B : JStr) (x : Char)
    (hA : ∀ c ∈ A, p c = true) (hx : p x = false) :
    (A ++ x :: B).dropWhile p = x :: B := by
  rw [dropWhile_append_all A (x :: B) hA, List.dropWhile_cons_of_neg (by simp [hx])]

lemma replaceAllChar_id (pat repl : Char) :
    ∀ (l : JStr), pat ∉ l → replaceAllChar pat repl l = l := by
  intro l
  induction l with
  | nil =>
    intro h
    rfl
  | cons a t ih =>
    intro h
    have ha : a ≠ pat := fun hbad => h (by rw [← hbad]; exact List.mem_cons_self a t)
    simp only [replaceAllChar, List.map_cons, if_neg ha]
    rw [show List.map (fun c => if c = pat then repl else c) t = t from
      ih (fun hbad => h (List.mem_cons_of_mem a hbad))]

lemma head?_append_left (A B : JStr) (c : Char) (h : A.head? = some c) :
    (A ++ B).head? = some c := by
  cases A with
  | nil => cases h
  | cons a t => simpa using h

lemma getLast?_append_right (A B : JStr) (h : B ≠ []) :
    (A ++ B).getLast? = B.getLast? :=
  List.getLast?_append_of_ne_nil A h

lemma getLast?_cons_of_ne_nil (a : Char) (l : JStr) (h : l ≠ []) :
    (a :: l).getLast? = l.getLast? := by
  have := getLast?_append_right [a] l h
  simpa using this

/-- A plain path segment: non-empty, without separators, dots, or
backslashes. -/
def PlainSeg (s : JStr) : Prop :=
  s ≠ [] ∧ '/' ∉ s ∧ '.' ∉ s ∧ '\\' ∉ s

instance (s : JStr) : Decidable (PlainSeg s) := by
  unfold PlainSeg
  infer_instance

lemma isSuffixOf_of_suffix {a b : JStr} (h : a <:+ b) : a.isSuffixOf b = true := by
  rw [List.isSuffixOf, List.isPrefixOf_iff_prefix]
  exact List.reverse_prefix.2 h

lemma basenameRaw_shape (D n x : JStr) (hn : '/' ∉ n) (hx : '/' ∉ x) :
    posixBasenameRaw (D ++ '/' :: (n ++ '.' :: x)) = n ++ '.' :: x := by
  unfold posixBasenameRaw
  have hrev : (D ++ '/' :: (n ++ '.' :: x)).reverse =
      (n ++ '.' :: x).reverse ++ '/' :: D.reverse := by
    rw [List.reverse_append, List.reverse_cons]
    simp [List.append_assoc]
  rw [hrev]
  have hE : ∀ c ∈ (n ++ '.' :: x).reverse, c ≠ '/' := by
    intro c hc
    rw [List.mem_reverse] at hc
    rcases List.mem_append.1 hc with h | h
    · exact fun hbad => hn (hbad ▸ h)
    · rcases List.mem_cons.1 h with h | h
      · rw [h]
        decide
      · exact fun hbad => hx (hbad ▸ h)
  obtain ⟨e, E2, hE2⟩ : ∃ e E2, (n ++ '.' :: x).reverse = e :: E2 := by
    cases hcase : (n ++ '.' :: x).reverse with
    | nil => exact absurd hcase (by simp)
    | cons e E2 => exact ⟨e, E2, rfl⟩
  rw [hE2]
  rw [dropWhile_eq_self_of_head _ (fun c hc => by
    rw [List.cons_append, List.head?_cons] at hc
    injection hc with hc
    simp only [decide_eq_false_iff_not]
    exact hc ▸ hE e (hE2 ▸ List.mem_cons_self e E2))]
  rw [takeWhile_stop (e :: E2) D.reverse '/'
    (fun c hc => by
      simp only [decide_eq_true_eq]
      exact hE c (hE2 ▸ hc))
    (by decide)]
  rw [← hE2, List.reverse_reverse]

lemma extSeg_shape (n x : JStr) (hnne : n ≠ []) (hn3 : '.' ∉ n) (hx3 : '.' ∉ x) :
    extSeg (n ++ '.' :: x) = '.' :: x := by
  have hrev : (n ++ '.' :: x).reverse = x.reverse ++ '.' :: n.reverse := by
    rw [List.reverse_append, List.reverse_cons]
    simp [List.append_assoc]
  simp only [extSeg]
  rw [hrev]
  have hxA : ∀ c ∈ x.reverse, (fun c => decide (c ≠ '.')) c = true := by
    intro c hc
    rw [List.mem_reverse] at hc
    simp only [decide_eq_true_eq]
    exact fun hbad => hx3 (hbad ▸ hc)
  rw [takeWhile_stop x.reverse n.reverse '.' hxA (by decide)]
  rw [dropWhile_stop x.reverse n.reverse '.' hxA (by decide)]
  rw [if_neg (by simp)]
  rw [List.tail_cons]
  rw [if_neg (by simpa using hnne)]
  rw [if_neg ?hdd]
  · rw [List.reverse_reverse]
  case hdd =>
    simp only [Bool.and_eq_true, decide_eq_true_eq]
    intro hbad
    apply hn3
    have hdot : n = ['.'] := by
      rw [← List.reverse_reverse n, hbad.1]
      rfl
    rw [hdot]
    exact List.mem_cons_self '.' []

lemma extname_shape (D n x : JStr) (hn2 : '/' ∉ n) (hn3 : '.' ∉ n) (hnne : n ≠ [])
    (hx2 : '/' ∉ x) (hx3 : '.' ∉ x) :
    posixExtname (D ++ '/' :: (n ++ '.' :: x)) = '.' :: x := by
  unfold posixExtname
  rw [basenameRaw_shape D n x hn2 hx2, extSeg_shape n x hnne hn3 hx3]

lemma basename_shape (D n x : JStr) (hn2 : '/' ∉ n) (hnne : n ≠ []) (hx2 : '/' ∉ x) :
    posixBasename (D ++ '/' :: (n ++ '.' :: x)) ('.' :: x) = n := by
  simp only [posixBasename]
  rw [basenameRaw_shape D n x hn2 hx2]
  have hlenn := List.length_pos.2 hnne
  rw [if_neg ?h1, if_neg ?h2, if_neg ?h3, if_pos ?h4]
  · rw [show (n ++ '.' :: x).length - ('.' :: x).length = n.length by simp]
    exact List.take_left n ('.' :: x)
  case h1 =>
    simp only [Bool.or_eq_true, decide_eq_true_eq]
    rintro (h | h)
    · cases h
    · simp only [List.length_append, List.length_cons] at h
      omega
  case h2 =>
    intro hbad
    have hlen := congrArg List.length hbad
    simp only [List.length_append, List.length_cons] at hlen
    omega
  case h3 =>
    intro hbad
    have hlen := congrArg List.length hbad
    simp only [List.length_append, List.length_cons] at hlen
    omega
  case h4 =>
    exact isSuffixOf_of_suffix ⟨n, rfl⟩

lemma dirname_shape (c0 : Char) (D2 n x : JStr) (hc0 : c0 ≠ '/')
    (hn : '/' ∉ n) (hx : '/' ∉ x) :
    posixDirname ((c0 :: D2) ++ '/' :: (n ++ '.' :: x)) = c0 :: D2 := by
  rw [List.cons_append]
  simp only [posixDirname]
  have hrev : (D2 ++ '/' :: (n ++ '.' :: x)).reverse =
      (n ++ '.' :: x).reverse ++ '/' :: D2.reverse := by
    rw [List.reverse_append, List.reverse_cons]
    simp [List.append_assoc]
  rw [hrev]
  have hE : ∀ c ∈ (n ++ '.' :: x).reverse, c ≠ '/' := by
    intro c hc
    rw [List.mem_reverse] at hc
    rcases List.mem_append.1 hc with h | h
    · exact fun hbad => hn (hbad ▸ h)
    · rcases List.mem_cons.1 h with h | h
      · rw [h]
        decide
      · exact fun hbad => hx (hbad ▸ h)
  obtain ⟨e, E2, hE2⟩ : ∃ e E2, (n ++ '.' :: x).reverse = e :: E2 := by
    cases hcase : (n ++ '.' :: x).reverse with
    | nil => exact absurd hcase (by simp)
    | cons e E2 => exact ⟨e, E2, rfl⟩
  rw [hE2]
  have hinner : List.dropWhile (fun c => decide (c = '/'))
      ((e :: E2) ++ '/' :: D2.reverse) = (e :: E2) ++ '/' :: D2.reverse :=
    dropWhile_eq_self_of_head _ (fun c hc => by
      rw [List.cons_append, List.head?_cons] at hc
      injection hc with hc
      simp only [decide_eq_false_iff_not]
      exact hc ▸ hE e (hE2 ▸ List.mem_cons_self e E2))
  rw [hinner]
  rw [dropWhile_stop (e :: E2) D2.reverse '/'
    (fun c hc => by
      simp only [decide_eq_true_eq]
      exact hE c (hE2 ▸ hc))
    (by decide)]
  rw [if_neg (by simp)]
  rw [if_neg (by simp [hc0])]
  rw [List.tail_cons, List.reverse_reverse]

lemma splitSlash_ne_nil : ∀ l : JStr, splitSlash l ≠ [] := by
  intro l
  cases l with
  | nil => simp [splitSlash]
  | cons c rest =>
    simp only [splitSlash]
    split <;> simp

lemma splitSlash_append : ∀ (A B : JStr),
    splitSlash (A ++ '/' :: B) = splitSlash A ++ splitSlash B := by
  intro A
  induction A with
  | nil =>
    intro B
    simp [splitSlash]
  | cons c t ih =>
    intro B
    rw [List.cons_append]
    simp only [splitSlash]
    by_cases hc : c = '/'
    · rw [if_pos hc, if_pos hc, ih B]
      simp
    · rw [if_neg hc, if_neg hc, ih B]
      obtain ⟨s, ss, hss⟩ : ∃ s ss, splitSlash t = s :: ss := by
        cases h : splitSlash t with
        | nil => exact absurd h (splitSlash_ne_nil t)
        | cons s ss => exact ⟨s, ss, rfl⟩
      rw [hss]
      simp

lemma splitSlash_no_slash : ∀ l : JStr, '/' ∉ l → splitSlash l = [l] := by
  intro l
  induction l with
  | nil =>
    intro h
    rfl
  | cons c t ih =>
    intro h
    have hc : c ≠ '/' := fun hbad => h (by rw [← hbad]; exact List.mem_cons_self c t)
    simp only [splitSlash]
    rw [if_neg hc, ih (fun hbad => h (List.mem_cons_of_mem c hbad))]
    simp

lemma joinSlash_ne_nil : ∀ (segs : List JStr), segs ≠ [] →
    (∀ s ∈ segs, s ≠ []) → joinSlash segs ≠ [] := by
  intro segs
  cases segs with
  | nil =>
    intro h
    exact absurd rfl h
  | cons s rest =>
    intro _ h
    simp only [joinSlash]
    split
    · exact h s (List.mem_cons_self s rest)
    · simp [h s (List.mem_cons_self s rest)]

lemma joinSlash_append : ∀ (A B : List JStr), A ≠ [] → B ≠ [] →
    joinSlash (A ++ B) = joinSlash A ++ '/' :: joinSlash B := by
  intro A
  induction A with
  | nil =>
    intro B hA hB
    exact absurd rfl hA
  | cons s rest ih =>
    intro B hA hB
    rw [List.cons_append]
    simp only [joinSlash]
    by_cases hr : rest = []
    · subst hr
      rw [if_neg (by simpa using hB), if_pos rfl]
      simp
    · rw [if_neg (by simp [hr]), if_neg hr, ih B hr hB]
      simp

lemma splitSlash_joinSlash : ∀ (segs : List JStr), segs ≠ [] →
    (∀ s ∈ segs, '/' ∉ s) → splitSlash (joinSlash segs) = segs := by
  intro segs
  induction segs with
  | nil =>
    intro h
    exact absurd rfl h
  | cons s rest ih =>
    intro _ h
    cases rest with
    | nil =>
      simp only [joinSlash, if_pos rfl]
      exact splitSlash_no_slash s (h s (List.mem_cons_self s []))
    | cons s2 r2 =>
      have hjoin := joinSlash_append [s] (s2 :: r2) (by simp) (by simp)
      have hjs : joinSlash [s] = s := by simp [joinSlash]
      rw [show s :: s2 :: r2 = [s] ++ s2 :: r2 from rfl, hjoin, hjs]
      rw [splitSlash_append s (joinSlash (s2 :: r2))]
      rw [splitSlash_no_slash s (h s (List.mem_cons_self s (s2 :: r2)))]
      rw [ih (by simp) (fun t ht => h t (List.mem_cons_of_mem s ht))]

lemma mem_joinSlash {c : Char} : ∀ (segs : List JStr), c ∈ joinSlash segs →
    c = '/' ∨ ∃ s ∈ segs, c ∈ s := by
  intro segs
  induction segs with
  | nil =>
    intro h
    cases h
  | cons s rest ih =>
    simp only [joinSlash]
    intro h
    by_cases hr : rest = []
    · rw [if_pos hr] at h
      exact Or.inr ⟨s, List.mem_cons_self s rest, h⟩
    · rw [if_neg hr] at h
      rcases List.mem_append.1 h with h | h
      · exact Or.inr ⟨s, List.mem_cons_self s rest, h⟩
      · rcases List.mem_cons.1 h with h | h
        · exact Or.inl h
        · rcases ih h with h | ⟨t, ht, hct⟩
          · exact Or.inl h
          · exact Or.inr ⟨t, List.mem_cons_of_mem s ht, hct⟩

lemma joinSlash_head? (c : Char) (t : JStr) (rest : List JStr) :
    (joinSlash ((c :: t) :: rest)).head? = some c := by
  simp only [joinSlash]
  split
  · rfl
  · rfl

lemma normStack_push (b : Bool) :
    ∀ (l : List JStr) (acc : List JStr),
      (∀ s ∈ l, s ≠ [] ∧ s ≠ ['.'] ∧ s ≠ ['.', '.']) →
      normStack b acc l = acc.reverse ++ l := by
  intro l
  induction l with
  | nil =>
    intro acc h
    simp [normStack]
  | cons seg rest ih =>
    intro acc h
    obtain ⟨h1, h2, h3⟩ := h seg (List.mem_cons_self seg rest)
    simp only [normStack]
    rw [if_neg (by simp [h1, h2]), if_neg (by simp [h3])]
    rw [ih (seg :: acc) (fun s hs => h s (List.mem_cons_of_mem seg hs))]
    simp

/-- C4: for a normalized source URL of the nested-directory form
`/dir1/.../dirk/name.ext`, the derived thumbnail URL is exactly
`/gallery/thumbs/dir1/.../dirk/name.jpg`: the extension is always replaced
by `.jpg` and the source directory structure is mirrored under the fixed
`gallery/thumbs` subtree. -/
theorem toThumbUrl_shape (segs : List JStr) (n x : JStr)
    (hsegs : segs ≠ []) (hseg : ∀ s ∈ segs, PlainSeg s)
    (hn : PlainSeg n) (hx : PlainSeg x) :
    toThumbUrl (.str ('/' :: (joinSlash segs ++ '/' :: (n ++ '.' :: x)))) =
      '/' :: (gallerySeg ++ '/' :: (thumbsSeg ++ '/' ::
        (joinSlash segs ++ '/' :: (n ++ jpgSuffix)))) := by
  obtain ⟨hn1, hn2, hn3, hn4⟩ := hn
  obtain ⟨hx1, hx2, hx3, hx4⟩ := hx
  have hjfx : jpgSuffix = '.' :: ("jpg").data := rfl
  have hsegne : ∀ s ∈ segs, s ≠ [] := fun s hs => (hseg s hs).1
  have hDne : joinSlash segs ≠ [] := joinSlash_ne_nil segs hsegs hsegne
  have hDbs : '\\' ∉ joinSlash segs := by
    intro hbad
    rcases mem_joinSlash segs hbad with h | ⟨s, hs, hcs⟩
    · exact absurd h (by decide)
    · exact (hseg s hs).2.2.2 hcs
  obtain ⟨c0, D2, hD2⟩ : ∃ c0 D2, joinSlash segs = c0 :: D2 := by
    cases hcase : joinSlash segs with
    | nil => exact absurd hcase hDne
    | cons c0 D2 => exact ⟨c0, D2, rfl⟩
  have hc0 : c0 ≠ '/' := by
    obtain ⟨s0, rest0, hs0⟩ : ∃ s0 rest0, segs = s0 :: rest0 := by
      cases hcase : segs with
      | nil => exact absurd hcase hsegs
      | cons a b => exact ⟨a, b, rfl⟩
    obtain ⟨ch, t0, hch⟩ : ∃ ch t0, s0 = ch :: t0 := by
      cases hcase : s0 with
      | nil => exact absurd hcase (hsegne s0 (hs0 ▸ List.mem_cons_self s0 rest0))
      | cons a b => exact ⟨a, b, rfl⟩
    have hh := joinSlash_head? ch t0 rest0
    rw [← hch, ← hs0, hD2] at hh
    simp only [List.head?_cons, Option.some.injEq] at hh
    intro hbad
    apply (hseg s0 (hs0 ▸ List.mem_cons_self s0 rest0)).2.1
    have hch2 : ch = '/' := hh.symm.trans hbad
    rw [hch, hch2]
    exact List.mem_cons_self '/' t0
  have hnjne : n ++ jpgSuffix ≠ [] := by
    intro hbad
    exact absurd (List.append_eq_nil.1 hbad).2 (by decide)
  -- the normalized source URL is unchanged
  have hsrcBS : '\\' ∉ '/' :: (joinSlash segs ++ '/' :: (n ++ '.' :: x)) := by
    intro hbad
    rcases List.mem_cons.1 hbad with h | h
    · exact absurd h (by decide)
    · rcases List.mem_append.1 h with h | h
      · exact hDbs h
      · rcases List.mem_cons.1 h with h | h
        · exact absurd h (by decide)
        · rcases List.mem_append.1 h with h | h
          · exact hn4 h
          · rcases List.mem_cons.1 h with h | h
            · exact absurd h (by decide)
            · exact hx4 h
  have hsrc : normalizeUrlPath (.str ('/' :: (joinSlash segs ++ '/' :: (n ++ '.' :: x)))) =
      '/' :: (joinSlash segs ++ '/' :: (n ++ '.' :: x)) := by
    simp only [normalizeUrlPath, ensureLeadingSlash]
    rw [if_pos (by simp [startsWithSlash])]
    exact replaceAllChar_id '\\' '/' _ hsrcBS
  simp only [toThumbUrl]
  rw [hsrc]
  have hstrip : stripLeadingSlash ('/' :: (joinSlash segs ++ '/' :: (n ++ '.' :: x))) =
      joinSlash segs ++ '/' :: (n ++ '.' :: x) := by
    simp [stripLeadingSlash, startsWithSlash]
  rw [hstrip]
  have hdir : posixDirname (joinSlash segs ++ '/' :: (n ++ '.' :: x)) = joinSlash segs := by
    rw [hD2]
    exact dirname_shape c0 D2 n x hc0 hn2 hx2
  rw [hdir, extname_shape (joinSlash segs) n x hn2 hn3 hn1 hx2 hx3,
    basename_shape (joinSlash segs) n x hn2 hn1 hx2]
  -- the join over the four parts
  have hfilter : ([gallerySeg, thumbsSeg, joinSlash segs, n ++ jpgSuffix].filter
      (fun s => s ≠ [])) = [gallerySeg, thumbsSeg, joinSlash segs, n ++ jpgSuffix] := by
    rw [List.filter_cons_of_pos (by decide), List.filter_cons_of_pos (by decide),
      List.filter_cons_of_pos (by exact decide_eq_true hDne),
      List.filter_cons_of_pos (by exact decide_eq_true hnjne), List.filter_nil]
  simp only [posixJoinList]
  rw [hfilter, if_neg (by simp)]
  have hJ4 : joinSlash [gallerySeg, thumbsSeg, joinSlash segs, n ++ jpgSuffix] =
      gallerySeg ++ '/' :: (thumbsSeg ++ '/' ::
        (joinSlash segs ++ '/' :: (n ++ jpgSuffix))) := by
    simp [joinSlash]
  rw [hJ4]
  -- facts needed by the normalization step
  have hPne : gallerySeg ++ '/' :: (thumbsSeg ++ '/' ::
      (joinSlash segs ++ '/' :: (n ++ jpgSuffix))) ≠ [] := by
    intro hbad
    exact absurd (List.append_eq_nil.1 hbad).1 (by decide)
  have habs : startsWithSlash (gallerySeg ++ '/' :: (thumbsSeg ++ '/' ::
      (joinSlash segs ++ '/' :: (n ++ jpgSuffix)))) = false := by
    unfold startsWithSlash
    rw [head?_append_left gallerySeg _ 'g' (by decide)]
    decide
  have hlastnj : (n ++ jpgSuffix).getLast? = some 'g' := by
    rw [getLast?_append_right n jpgSuffix (by decide)]
    decide
  have htrail : (gallerySeg ++ '/' :: (thumbsSeg ++ '/' ::
      (joinSlash segs ++ '/' :: (n ++ jpgSuffix)))).getLast? = some 'g' := by
    rw [getLast?_append_right _ _ (by simp),
      getLast?_cons_of_ne_nil _ _ (by simp),
      getLast?_append_right _ _ (by simp),
      getLast?_cons_of_ne_nil _ _ (by simp),
      getLast?_append_right _ _ (by simp),
      getLast?_cons_of_ne_nil _ _ hnjne,
      hlastnj]
  have hsplitP : splitSlash (gallerySeg ++ '/' :: (thumbsSeg ++ '/' ::
      (joinSlash segs ++ '/' :: (n ++ jpgSuffix)))) =
      [gallerySeg, thumbsSeg] ++ segs ++ [n ++ jpgSuffix] := by
    rw [splitSlash_append gallerySeg, splitSlash_append thumbsSeg,
      splitSlash_append (joinSlash segs)]
    rw [splitSlash_no_slash gallerySeg (by decide),
      splitSlash_no_slash thumbsSeg (by decide),
      splitSlash_joinSlash segs hsegs (fun s hs => (hseg s hs).2.1),
      splitSlash_no_slash (n ++ jpgSuffix) ?hnjs]
    · simp
    case hnjs =>
      intro hbad
      rcases List.mem_append.1 hbad with h | h
      · exact hn2 h
      · exact absurd h (by decide)
  have hjl : jpgSuffix.length = 4 := rfl
  have hstack : normStack true []
      ([gallerySeg, thumbsSeg] ++ segs ++ [n ++ jpgSuffix]) =
      [gallerySeg, thumbsSeg] ++ segs ++ [n ++ jpgSuffix] := by
    rw [normStack_push true _ [] ?hconds]
    · simp
    case hconds =>
      intro s hs
      rcases List.mem_append.1 hs with h | h
      · rcases List.mem_append.1 h with h | h
        · rcases List.mem_cons.1 h with h | h
          · subst h
            refine ⟨by decide, by decide, by decide⟩
          · rcases List.mem_cons.1 h with h | h
            · subst h
              refine ⟨by decide, by decide, by decide⟩
            · cases h
        · obtain ⟨h1, _, h3, _⟩ := hseg s h
          refine ⟨h1, ?_, ?_⟩
          · intro hbad
            apply h3
            rw [hbad]
            exact List.mem_cons_self '.' []
          · intro hbad
            apply h3
            rw [hbad]
            exact List.mem_cons_self '.' ['.']
      · rcases List.mem_cons.1 h with h | h
        · subst h
          refine ⟨hnjne, ?_, ?_⟩
          · intro hbad
            have hlen := congrArg List.length hbad
            simp only [List.length_append, hjl, List.length_cons,
              List.length_nil] at hlen
            omega
          · intro hbad
            have hlen := congrArg List.length hbad
            simp only [List.length_append, hjl, List.length_cons,
              List.length_nil] at hlen
            omega
        · cases h
  have hbody : joinSlash ([gallerySeg, thumbsSeg] ++ segs ++ [n ++ jpgSuffix]) =
      gallerySeg ++ '/' :: (thumbsSeg ++ '/' ::
        (joinSlash segs ++ '/' :: (n ++ jpgSuffix))) := by
    rw [List.append_assoc, joinSlash_append [gallerySeg, thumbsSeg] _ (by simp) (by simp),
      joinSlash_append segs [n ++ jpgSuffix] hsegs (by simp)]
    have hgt : joinSlash [gallerySeg, thumbsSeg] = gallerySeg ++ '/' :: thumbsSeg := by
      simp [joinSlash]
    have hnj : joinSlash [n ++ jpgSuffix] = n ++ jpgSuffix := by
      simp [joinSlash]
    rw [hgt, hnj]
    simp [List.append_assoc]
  have hbodyne : gallerySeg ++ '/' :: (thumbsSeg ++ '/' ::
      (joinSlash segs ++ '/' :: (n ++ jpgSuffix))) ≠ [] := hPne
  simp only [posixNormalize]
  rw [if_neg hPne, habs, hsplitP]
  simp only [Bool.not_false]
  rw [hstack, hbody]
  rw [if_neg hbodyne]
  rw [if_neg (show ¬(List.getLast? (gallerySeg ++ '/' :: (thumbsSeg ++ '/' ::
    (joinSlash segs ++ '/' :: (n ++ jpgSuffix)))) = some '/') from by
      rw [htrail]
      decide)]
  rw [if_neg (show ¬(false = true) from by decide)]
  -- no backslash anywhere in the relative thumbnail path
  apply replaceAllChar_id
  intro hbad
  rcases List.mem_cons.1 hbad with h | h
  · exact absurd h (by decide)
  · rcases List.mem_append.1 h with h | h
    · exact absurd h (by decide)
    · rcases List.mem_cons.1 h with h | h
      · exact absurd h (by decide)
      · rcases List.mem_append.1 h with h | h
        · exact absurd h (by decide)
        · rcases List.mem_cons.1 h with h | h
          · exact absurd h (by decide)
          · rcases List.mem_append.1 h with h | h
            · exact hDbs h
            · rcases List.mem_cons.1 h with h | h
              · exact absurd h (by decide)
              · rcases List.mem_append.1 h with h | h
                · exact hn4 h
                · exact absurd h (by decide)

/-- C4 witness: the source URL `/photos/rome-01.png` maps to the thumbnail
URL `/gallery/thumbs/photos/rome-01.jpg`. -/
theorem toThumbUrl_shape_witness :
    toThumbUrl (.str ('/' :: (joinSlash [("photos").data] ++ '/' ::
      (("rome-01").data ++ '.' :: ("png").data)))) =
      '/' :: (gallerySeg ++ '/' :: (thumbsSeg ++ '/' ::
        (joinSlash [("photos").data] ++ '/' :: (("rome-01").data ++ jpgSuffix)))) :=
  toThumbUrl_shape [("photos").data] ("rome-01").data ("png").data
    (by decide) (by decide) (by decide) (by decide)

end Gallery
